import Mathlib

/-!
Verification of the VITA49 standalone streamer (pluto_vita49_streamer.c).

The development shallowly embeds the packet codec, the MTU sizer, the
subscriber registry, the radio-configuration store and the control-loop
step of the streamer.  Machine integers are modelled as `Nat`/`Int` with
explicit reductions modulo 2^w where the C code relies on wrap-around;
packet memory is modelled as lists of byte values; the C `double` gain is
modelled as a rational (every IEEE double in the relevant range is a
rational, and the only operations applied to it -- scaling by the power of
two 128 and truncation to an integer -- are exact on doubles).
-/

namespace Vita49

/-- Big-endian serialisation of the low `k` bytes of `x`, as produced by
`htons`/`htonl`/`htonll` followed by `memcpy` in the source. -/
def toBytesBE : ℕ → ℕ → List ℕ
  | 0, _ => []
  | k + 1, x => toBytesBE k (x / 256) ++ [x % 256]

/-- Big-endian value of a byte list, as recovered by `ntohs`/`ntohl`. -/
def fromBytesBE (l : List ℕ) : ℕ :=
  l.foldl (fun a b => 256 * a + b) 0

/-- Read `k` bytes big-endian starting at byte offset `off` of a packet. -/
def readBE (buf : List ℕ) (off k : ℕ) : ℕ :=
  fromBytesBE ((buf.drop off).take k)

/-- The `k`-byte slice of a packet starting at offset `off`. -/
def sliceAt (buf : List ℕ) (off k : ℕ) : List ℕ :=
  (buf.drop off).take k

/-- Reinterpretation of a 64-bit pattern as a signed value, as the source
does when it assembles `((int64_t)high << 32) | (int64_t)low`. -/
def toInt64 (n : ℕ) : ℤ :=
  if n < 2 ^ 63 then (n : ℤ) else (n : ℤ) - 2 ^ 64

/-- Reinterpretation of a 16-bit pattern as a signed value, as in the
source's `(int16_t)ntohs(...)`. -/
def toInt16 (n : ℕ) : ℤ :=
  if n < 2 ^ 15 then (n : ℤ) else (n : ℤ) - 2 ^ 16

/-- C conversion of a real (`double`) value to an integer type truncates
toward zero. -/
def ratTrunc (q : ℚ) : ℤ :=
  if 0 ≤ q then ⌊q⌋ else ⌈q⌉

/-- The three values `parse_context_packet` can write through its output
pointers; the caller (`control_thread`) preloads them with the current
configuration, so a field whose CIF bit is clear keeps its old value. -/
structure ParsedConfig where
  freq_hz : ℕ
  rate_hz : ℕ
  gain_db : ℚ
deriving DecidableEq

/-- parse_context_packet: rejects `len < 28`, reads the CIF at offset 20,
then walks the supported fields in descending CIF bit order
(29 is skipped, 27 is the 64-bit Q43.20 frequency, 23 the 16-bit Q8.7
gain inside a 32-bit slot, 21 the 64-bit Q43.20 sample rate).
`Int.div` is C's truncating division; the final casts to `uint64_t` and
`uint32_t` are the reductions modulo 2^64 and 2^32. -/
def parse_context_packet (buf : List ℕ) (len : ℕ) (d : ParsedConfig) : Option ParsedConfig :=
  if len < 28 then none else
  let cif := readBE buf 20 4
  let p1 := 24 + (if cif.testBit 29 then 8 else 0)
  let freq := if cif.testBit 27 then
      (Int.tdiv (toInt64 (readBE buf p1 8)) (2 ^ 20) % 2 ^ 64).toNat
    else d.freq_hz
  let p2 := p1 + (if cif.testBit 27 then 8 else 0)
  let gain := if cif.testBit 23 then ((toInt16 (readBE buf p2 2) : ℚ) / 128) else d.gain_db
  let p3 := p2 + (if cif.testBit 23 then 4 else 0)
  let rate := if cif.testBit 21 then
      (Int.tdiv (toInt64 (readBE buf p3 8)) (2 ^ 20) % 2 ^ 32).toNat
    else d.rate_hz
  some ⟨freq, rate, gain⟩

/-- The byte offsets `parse_context_packet` dereferences, mirroring its
cursor arithmetic: the four CIF bytes at 20..23, then per present field the
bytes of that field (bit 29 only advances the cursor, bit 27 reads 8 bytes,
bit 23 reads 2 bytes and advances 4, bit 21 reads 8 bytes). -/
def parse_field_reads (cif : ℕ) : List ℕ :=
  let p1 := 24 + (if cif.testBit 29 then 8 else 0)
  let r27 := if cif.testBit 27 then (List.range 8).map (p1 + ·) else []
  let p2 := p1 + (if cif.testBit 27 then 8 else 0)
  let r23 := if cif.testBit 23 then [p2, p2 + 1] else []
  let p3 := p2 + (if cif.testBit 23 then 4 else 0)
  let r21 := if cif.testBit 21 then (List.range 8).map (p3 + ·) else []
  (List.range 4).map (20 + ·) ++ r27 ++ r23 ++ r21

/-- The CIF emitted by `encode_context_packet`: bits 29 (bandwidth),
27 (RF reference frequency), 23 (gain), 21 (sample rate) and
19 (state/event indicators). -/
def context_cif : ℕ := 2 ^ 29 + 2 ^ 27 + 2 ^ 23 + 2 ^ 21 + 2 ^ 19

/-- The state/event indicator word: bit 31 calibrated-time always set,
bit 19 overrange when overflows were counted, bit 18 sample-loss when
underflows were counted. -/
def state_event_word (overflows underflows : ℕ) : ℕ :=
  2 ^ 31 + (if 0 < overflows then 2 ^ 19 else 0) + (if 0 < underflows then 2 ^ 18 else 0)

/-- Q43.20 fixed-point encoding as a 64-bit pattern:
`(int64_t)x * (1 << 20)` then `htonll`. -/
def fix64 (x : ℕ) : ℕ := ((x : ℤ) * 2 ^ 20 % 2 ^ 64).toNat

/-- Q8.7 gain encoding as a 16-bit pattern: `(int16_t)(gain * 128)` then
`htons`. -/
def gain_word (g : ℚ) : ℕ := (ratTrunc (g * 128) % 2 ^ 16).toNat

/-- Context payload, appended exactly as the source does: bandwidth,
RF frequency, gain stage-1 plus a zero stage-2, sample rate, state/event. -/
def ctx_payload (freq rate bw : ℕ) (gain : ℚ) (ov uf : ℕ) : List ℕ :=
  toBytesBE 8 (fix64 bw) ++ toBytesBE 8 (fix64 freq) ++
    (toBytesBE 2 (gain_word gain) ++ toBytesBE 2 0) ++
    toBytesBE 8 (fix64 rate) ++ toBytesBE 4 (state_event_word ov uf)

/-- The 20-byte timestamped prelude shared by all packets: header word,
stream ID 0x01000000, integer seconds, picosecond fraction. -/
def ctx_prelude (hw ts : ℕ) : List ℕ :=
  toBytesBE 4 hw ++ toBytesBE 4 0x01000000 ++ toBytesBE 4 (ts / 1000000 % 2 ^ 32) ++
    toBytesBE 8 ((ts % 1000000) * 1000000 % 2 ^ 64)

/-- encode_context_packet: prelude, CIF, payload.  The header word packs
packet type 4, TSI 1, TSF 2 and the total word count. -/
def encode_context_packet (ts freq rate bw : ℕ) (gain : ℚ) (ov uf : ℕ) : List ℕ :=
  let payload := ctx_payload freq rate bw gain ov uf
  let total_words := 6 + payload.length / 4
  ctx_prelude (4 * 2 ^ 28 + 1 * 2 ^ 22 + 2 * 2 ^ 20 + total_words % 2 ^ 16) ts ++
    (toBytesBE 4 context_cif ++ payload)

/-- IQ payload of a data packet: `m` successive int16 lanes, each
byte-swapped by `htons`, i.e. stored as its 16-bit pattern big-endian. -/
def iq_payload (iq : List ℤ) : ℕ → List ℕ
  | 0 => []
  | m + 1 => iq_payload iq m ++ toBytesBE 2 ((iq.getD m 0 % 2 ^ 16).toNat)

/-- Data packet header word: type 1, trailer present, TSI 1, TSF 2,
4-bit packet counter in bits 19..16, total words in bits 15..0. -/
def data_header_word (c total_words : ℕ) : ℕ :=
  1 * 2 ^ 28 + 2 ^ 26 + 1 * 2 ^ 22 + 2 * 2 ^ 20 + c % 16 * 2 ^ 16 + total_words % 2 ^ 16

/-- encode_data_packet: refuses (empty output, counter untouched) when the
required size exceeds MAX_PACKET_BUFFER = 16384; otherwise emits header,
stream ID, timestamps, byteswapped IQ lanes, zero padding to a 32-bit
boundary, trailer 0x40000000, and increments the counter modulo 16.
Returns the emitted bytes and the new counter. -/
def encode_data_packet (ts : ℕ) (iq : List ℤ) (n c : ℕ) : List ℕ × ℕ :=
  if 16384 < 20 + n * 2 * 2 + 4 then ([], c)
  else
    let payload_bytes := n * 2 * 2
    let padding := (4 - payload_bytes % 4) % 4
    let padded_bytes := payload_bytes + padding
    let total_words := 6 + padded_bytes / 4
    (toBytesBE 4 (data_header_word c total_words) ++ toBytesBE 4 0x01000000 ++
        toBytesBE 4 (ts / 1000000 % 2 ^ 32) ++ toBytesBE 8 ((ts % 1000000) * 1000000 % 2 ^ 64) ++
        (iq_payload iq (n * 2) ++ List.replicate padding 0) ++ toBytesBE 4 0x40000000,
      (c + 1) % 16)

/-- The packet-counter field of an emitted data packet: bits 19..16 of the
first 32-bit word. -/
def counter_field (pkt : List ℕ) : ℕ := readBE pkt 0 4 / 2 ^ 16 % 16

/-- One emission of the streaming thread: a data packet of `n` samples
(which threads the packet counter) or a context packet (which does not
take the counter at all, as `encode_context_packet` has no counter
parameter). -/
inductive StreamEvent where
  | data (n : ℕ)
  | ctx
deriving DecidableEq

/-- A data emission is size-valid when `encode_data_packet` accepts it. -/
def ev_ok : StreamEvent → Bool
  | .data n => decide (20 + n * 2 * 2 + 4 ≤ 16384)
  | .ctx => true

def count_data : List StreamEvent → ℕ
  | [] => 0
  | .data _ :: evs => count_data evs + 1
  | .ctx :: evs => count_data evs

/-- Run of the streaming thread over a list of emissions, threading the
4-bit packet counter exactly as `streaming_thread` does: data packets go
through `encode_data_packet` with the shared counter, context packets are
emitted without touching it.  Returns the final counter and the counter
field of each emitted data packet, in order. -/
def stream_run (c : ℕ) : List StreamEvent → ℕ × List ℕ
  | [] => (c, [])
  | .ctx :: evs => stream_run c evs
  | .data n :: evs =>
    let r := encode_data_packet 0 [] n c
    let rest := stream_run r.2 evs
    (rest.1, counter_field r.1 :: rest.2)

/-- calculate_optimal_samples_per_packet: `size_t` arithmetic, so the
subtraction `mtu - 28 - 24` wraps modulo 2^64 when mtu < 52; then divide
by the 4 bytes per IQ pair and round down to an even count. -/
def calculate_optimal_samples_per_packet (mtu : ℕ) : ℕ :=
  let available_bytes := (mtu + 2 ^ 64 - 52) % 2 ^ 64
  let max_samples := available_bytes / 4
  max_samples / 2 * 2

/-- Modelled from the spec's words (for comparison with the code):
`samples_per_packet = floor((M - 28 - 24) / 4)` rounded down to the
nearest even number, with ordinary (truncated natural) subtraction. -/
def spec_samples_per_packet (mtu : ℕ) : ℕ :=
  (mtu - 52) / 4 / 2 * 2

/-- The guarded radio configuration record `g_sdr_config`. -/
structure SdrConfig where
  center_freq_hz : ℕ
  sample_rate_hz : ℕ
  bandwidth_hz : ℕ
  gain_db : ℚ
  config_changed : Bool
deriving DecidableEq

/-- Bandwidth recomputation `new_rate * 0.8` (IEEE double) truncated to
`uint32_t`.  For every rate < 2^32 the double computation is within 5e-7
of the rational 0.8 * rate and never falls below it when that is an
integer, so the truncated result is exactly ⌊4 * rate / 5⌋. -/
def bw_of_rate (rate : ℕ) : ℕ := 4 * rate / 5

/-- The static initialiser of `g_sdr_config`: 2.4 GHz, 30 MS/s,
bandwidth `30000000 * 0.8` (the double product rounds to exactly
24000000.0), gain 20 dB, clean flag. -/
def initial_config : SdrConfig := ⟨2400000000, 30000000, 24000000, 20, false⟩

/-- The configuration update performed by `control_thread` after a
successful parse: field-by-field comparison, bandwidth recomputed from the
rate when (and only when) the rate changed, dirty flag raised if anything
changed. -/
def apply_config_update (cfg : SdrConfig) (r : ParsedConfig) : SdrConfig :=
  let c1 := if r.freq_hz = cfg.center_freq_hz then cfg
    else { cfg with center_freq_hz := r.freq_hz, config_changed := true }
  let c2 := if r.rate_hz = c1.sample_rate_hz then c1
    else { c1 with sample_rate_hz := r.rate_hz, bandwidth_hz := bw_of_rate r.rate_hz,
                   config_changed := true }
  if r.gain_db = c2.gain_db then c2 else { c2 with gain_db := r.gain_db, config_changed := true }

/-- Bandwidth is derived from the sample rate, never set independently. -/
def bw_invariant (cfg : SdrConfig) : Prop :=
  cfg.bandwidth_hz = bw_of_rate cfg.sample_rate_hz

/-- A subscriber entry of `g_subscribers`. -/
structure Subscriber where
  addr : ℕ
  port : ℕ
  active : Bool
deriving DecidableEq

/-- add_subscriber: scan the occupied entries for an active entry with the
same (address, port); if found do nothing, otherwise append a fresh active
entry when fewer than MAX_SUBSCRIBERS = 16 are stored, else drop. -/
def add_subscriber (a p : ℕ) (l : List Subscriber) : List Subscriber :=
  if l.any fun s => s.active && (s.addr == a) && (s.port == p) then l
  else if l.length < 16 then l ++ [⟨a, p, true⟩]
  else l

/-- Registry invariant: at most 16 entries, no two entries with the same
(address, port) key, all entries active. -/
def subscribers_inv (l : List Subscriber) : Prop :=
  l.length ≤ 16 ∧ l.Pairwise (fun s t => s.addr ≠ t.addr ∨ s.port ≠ t.port) ∧
    ∀ s ∈ l, s.active = true

/-- The state `control_thread` mutates per received datagram. -/
structure ControlState where
  config : SdrConfig
  subscribers : List Subscriber
  reconfigs : ℕ
deriving DecidableEq

/-- The body of `control_thread` for one received datagram: preload the
parse outputs with the current configuration, parse, apply the update on
success (and only then), enrol the source address with data port 4991,
and increment the reconfigurations counter on every datagram. -/
def control_step (st : ControlState) (src : ℕ) (dgram : List ℕ) : ControlState :=
  let d : ParsedConfig := ⟨st.config.center_freq_hz, st.config.sample_rate_hz, st.config.gain_db⟩
  let st1 := match parse_context_packet dgram dgram.length d with
    | some r => { st with config := apply_config_update st.config r }
    | none => st
  let st2 := { st1 with subscribers := add_subscriber src 4991 st1.subscribers }
  { st2 with reconfigs := st2.reconfigs + 1 }

/-- The defaults `control_thread` preloads before parsing. -/
def default_parsed : ParsedConfig := ⟨2400000000, 30000000, 20⟩

/-- A 28-byte packet whose CIF word has only the unsupported bit 30 set. -/
def c2_packet : List ℕ := List.replicate 20 0 ++ toBytesBE 4 (2 ^ 30) ++ List.replicate 4 0

/-- A 28-byte packet whose CIF word has only bit 27 (RF frequency) set. -/
def c10_packet : List ℕ := List.replicate 20 0 ++ toBytesBE 4 (2 ^ 27) ++ List.replicate 4 0

theorem length_toBytesBE (k x : ℕ) : (toBytesBE k x).length = k := by
  induction k generalizing x with
  | zero => rfl
  | succ k ih => simp [toBytesBE, ih]

theorem fromBytesBE_snoc (l : List ℕ) (b : ℕ) :
    fromBytesBE (l ++ [b]) = 256 * fromBytesBE l + b := by
  simp [fromBytesBE, List.foldl_append]

theorem from_toBytesBE (k x : ℕ) : fromBytesBE (toBytesBE k x) = x % 256 ^ k := by
  induction k generalizing x with
  | zero => simp [toBytesBE, fromBytesBE, Nat.mod_one]
  | succ k ih =>
    rw [toBytesBE, fromBytesBE_snoc, ih, pow_succ, Nat.mul_comm (256 ^ k) 256, Nat.mod_mul]
    ring

theorem drop_append_ge {α : Type} (l₁ l₂ : List α) (n : ℕ) (h : l₁.length ≤ n) :
    (l₁ ++ l₂).drop n = l₂.drop (n - l₁.length) := by
  induction l₁ generalizing n with
  | nil => simp
  | cons a t ih =>
    cases n with
    | zero => simp at h
    | succ m =>
      simp only [List.cons_append, List.drop_succ_cons, List.length_cons]
      rw [ih m (by simpa using h)]
      simp [Nat.succ_sub_succ]

theorem readBE_at (pre mid post : List ℕ) (off k : ℕ) (h1 : pre.length = off)
    (h2 : mid.length = k) : readBE (pre ++ (mid ++ post)) off k = fromBytesBE mid := by
  unfold readBE
  rw [← h1, ← h2, drop_append_ge _ _ _ (le_refl _), Nat.sub_self, List.drop_zero,
    List.take_left]

theorem sliceAt_at (pre mid post : List ℕ) (off k : ℕ) (h1 : pre.length = off)
    (h2 : mid.length = k) : sliceAt (pre ++ (mid ++ post)) off k = mid := by
  unfold sliceAt
  rw [← h1, ← h2, drop_append_ge _ _ _ (le_refl _), Nat.sub_self, List.drop_zero,
    List.take_left]

theorem iq_payload_length (iq : List ℤ) (m : ℕ) : (iq_payload iq m).length = 2 * m := by
  induction m with
  | zero => rfl
  | succ m ih =>
    simp only [iq_payload, List.length_append, ih, length_toBytesBE]
    omega

theorem ratTrunc_sub_abs_le (q : ℚ) : |(ratTrunc q : ℚ) - q| ≤ 1 := by
  unfold ratTrunc
  split
  · rw [abs_le]
    constructor
    · linarith [Int.sub_one_lt_floor q]
    · linarith [Int.floor_le q]
  · rw [abs_le]
    constructor
    · linarith [Int.le_ceil q]
    · linarith [Int.ceil_lt_add_one q]

theorem ratTrunc_gain_bounds (g : ℚ) (h1 : -3 ≤ g) (h2 : g ≤ 73) :
    -384 ≤ ratTrunc (g * 128) ∧ ratTrunc (g * 128) ≤ 9344 := by
  unfold ratTrunc
  rcases le_or_lt 0 (g * 128) with h | h
  · rw [if_pos h]
    refine ⟨le_trans (by norm_num) (Int.floor_nonneg.mpr h), ?_⟩
    have h3 : ⌊g * 128⌋ ≤ ⌊(9344 : ℚ)⌋ := Int.floor_le_floor (by linarith)
    simpa using h3
  · rw [if_neg (not_le.mpr h)]
    constructor
    · have h3 : ⌈(-384 : ℚ)⌉ ≤ ⌈g * 128⌉ := Int.ceil_le_ceil (by linarith)
      simpa using h3
    · have h3 : ⌈g * 128⌉ ≤ ⌈(0 : ℚ)⌉ := Int.ceil_le_ceil (by linarith)
      simp only [Int.ceil_zero] at h3
      omega

theorem toInt16_gain_word_eq (g : ℤ) (h1 : -384 ≤ g) (h2 : g ≤ 9344) :
    toInt16 ((g % 2 ^ 16).toNat) = g := by
  unfold toInt16
  split <;> omega

theorem toInt64_fix64 (x : ℕ) (h : x < 2 ^ 43) : toInt64 (fix64 x) = (x : ℤ) * 2 ^ 20 := by
  unfold toInt64 fix64
  split <;> omega

theorem tdiv_pow20 (x : ℤ) : Int.tdiv (x * 2 ^ 20) (2 ^ 20) = x :=
  Int.mul_tdiv_cancel x (by norm_num)

/-- C1: for every configuration with freq in [70 MHz, 6 GHz], rate in
[520 KS/s, 61.44 MS/s] and gain in [-3, 73] dB, encoding a context packet
and then decoding it returns the frequency and sample rate exactly (hence
within 1 Hz) and the gain within 1/128 dB. -/
theorem ctx_roundtrip (ts freq rate bw : ℕ) (gain : ℚ) (ov uf : ℕ) (d : ParsedConfig)
    (hf1 : 70000000 ≤ freq) (hf2 : freq ≤ 6000000000)
    (hr1 : 520000 ≤ rate) (hr2 : rate ≤ 61440000)
    (hg1 : -3 ≤ gain) (hg2 : gain ≤ 73) :
    ∃ r, parse_context_packet (encode_context_packet ts freq rate bw gain ov uf) 56 d = some r ∧
      r.freq_hz = freq ∧ r.rate_hz = rate ∧ |r.gain_db - gain| ≤ 1 / 128 := by
  obtain ⟨W, henc⟩ : ∃ w, encode_context_packet ts freq rate bw gain ov uf =
      ctx_prelude w ts ++ (toBytesBE 4 context_cif ++ ctx_payload freq rate bw gain ov uf) :=
    ⟨_, rfl⟩
  have hprelen : ∀ w, (ctx_prelude w ts).length = 20 := fun w => by
    simp [ctx_prelude, length_toBytesBE]
  have hcif : readBE (encode_context_packet ts freq rate bw gain ov uf) 20 4 = context_cif := by
    rw [henc, readBE_at _ _ _ 20 4 (hprelen W) (length_toBytesBE 4 _), from_toBytesBE]
    decide
  have hfreq : readBE (encode_context_packet ts freq rate bw gain ov uf) 32 8 = fix64 freq := by
    have e2 : encode_context_packet ts freq rate bw gain ov uf =
        (ctx_prelude W ts ++ toBytesBE 4 context_cif ++ toBytesBE 8 (fix64 bw)) ++
          (toBytesBE 8 (fix64 freq) ++
            ((toBytesBE 2 (gain_word gain) ++ toBytesBE 2 0) ++ toBytesBE 8 (fix64 rate) ++
              toBytesBE 4 (state_event_word ov uf))) := by
      rw [henc]; simp [ctx_payload, List.append_assoc]
    rw [e2, readBE_at _ _ _ 32 8 (by simp [List.length_append, hprelen, length_toBytesBE])
      (length_toBytesBE 8 _), from_toBytesBE]
    have hlt : fix64 freq < 2 ^ 64 := by unfold fix64; omega
    have h256 : (256 : ℕ) ^ 8 = 2 ^ 64 := by norm_num
    rw [h256, Nat.mod_eq_of_lt hlt]
  have hgain : readBE (encode_context_packet ts freq rate bw gain ov uf) 40 2 =
      gain_word gain := by
    have e3 : encode_context_packet ts freq rate bw gain ov uf =
        (ctx_prelude W ts ++ toBytesBE 4 context_cif ++ toBytesBE 8 (fix64 bw) ++
            toBytesBE 8 (fix64 freq)) ++
          (toBytesBE 2 (gain_word gain) ++
            (toBytesBE 2 0 ++ toBytesBE 8 (fix64 rate) ++
              toBytesBE 4 (state_event_word ov uf))) := by
      rw [henc]; simp [ctx_payload, List.append_assoc]
    rw [e3, readBE_at _ _ _ 40 2 (by simp [List.length_append, hprelen, length_toBytesBE])
      (length_toBytesBE 2 _), from_toBytesBE]
    have hlt : gain_word gain < 2 ^ 16 := by unfold gain_word; omega
    have h256 : (256 : ℕ) ^ 2 = 2 ^ 16 := by norm_num
    rw [h256, Nat.mod_eq_of_lt hlt]
  have hrate : readBE (encode_context_packet ts freq rate bw gain ov uf) 44 8 = fix64 rate := by
    have e4 : encode_context_packet ts freq rate bw gain ov uf =
        (ctx_prelude W ts ++ toBytesBE 4 context_cif ++ toBytesBE 8 (fix64 bw) ++
            toBytesBE 8 (fix64 freq) ++ toBytesBE 2 (gain_word gain) ++ toBytesBE 2 0) ++
          (toBytesBE 8 (fix64 rate) ++ toBytesBE 4 (state_event_word ov uf)) := by
      rw [henc]; simp [ctx_payload, List.append_assoc]
    rw [e4, readBE_at _ _ _ 44 8 (by simp [List.length_append, hprelen, length_toBytesBE])
      (length_toBytesBE 8 _), from_toBytesBE]
    have hlt : fix64 rate < 2 ^ 64 := by unfold fix64; omega
    have h256 : (256 : ℕ) ^ 8 = 2 ^ 64 := by norm_num
    rw [h256, Nat.mod_eq_of_lt hlt]
  have hb29 : context_cif.testBit 29 = true := by decide
  have hb27 : context_cif.testBit 27 = true := by decide
  have hb23 : context_cif.testBit 23 = true := by decide
  have hb21 : context_cif.testBit 21 = true := by decide
  have hg := ratTrunc_gain_bounds gain hg1 hg2
  have hgw : toInt16 (gain_word gain) = ratTrunc (gain * 128) :=
    toInt16_gain_word_eq _ hg.1 hg.2
  have hparse : parse_context_packet (encode_context_packet ts freq rate bw gain ov uf) 56 d =
      some ⟨freq, rate, (ratTrunc (gain * 128) : ℚ) / 128⟩ := by
    unfold parse_context_packet
    rw [if_neg (by norm_num : ¬(56 : ℕ) < 28)]
    simp only [hcif, hb29, hb27, hb23, hb21, if_true]
    norm_num
    rw [hfreq, hgain, hrate, hgw,
      toInt64_fix64 freq (by omega), toInt64_fix64 rate (by omega)]
    have t1 : ((freq : ℤ) * 2 ^ 20).tdiv 1048576 = (freq : ℤ) := by
      rw [show (1048576 : ℤ) = 2 ^ 20 by norm_num]; exact tdiv_pow20 _
    have t2 : ((rate : ℤ) * 2 ^ 20).tdiv 1048576 = (rate : ℤ) := by
      rw [show (1048576 : ℤ) = 2 ^ 20 by norm_num]; exact tdiv_pow20 _
    rw [t1, t2]
    simp only [Option.some.injEq, ParsedConfig.mk.injEq]
    refine ⟨by omega, by omega, trivial⟩
  refine ⟨_, hparse, rfl, rfl, ?_⟩
  have habs := ratTrunc_sub_abs_le (gain * 128)
  have hdiff : (ratTrunc (gain * 128) : ℚ) / 128 - gain =
      ((ratTrunc (gain * 128) : ℚ) - gain * 128) / 128 := by ring
  rw [hdiff, abs_div, abs_of_pos (by norm_num : (0 : ℚ) < 128)]
  gcongr

/-- C1 witness at the default configuration. -/
theorem ctx_roundtrip_witness :
    ∃ r, parse_context_packet (encode_context_packet 0 2400000000 30000000 24000000 20 0 0) 56
        default_parsed = some r ∧
      r.freq_hz = 2400000000 ∧ r.rate_hz = 30000000 ∧ |r.gain_db - 20| ≤ 1 / 128 :=
  ctx_roundtrip 0 2400000000 30000000 24000000 20 0 0 default_parsed (by norm_num) (by norm_num)
    (by norm_num) (by norm_num) (by norm_num) (by norm_num)

/-- C3: in every encoded context packet the field bytes immediately
following the 32-bit CIF word (which ends at offset 24) appear in strictly
descending CIF bit order: bandwidth (bit 29) at 24, RF frequency (bit 27)
at 32, gain (bit 23) at 40, sample rate (bit 21) at 44 and state/event
indicators (bit 19) at 52; in particular the gain field precedes the
sample-rate field. -/
theorem ctx_field_order (ts freq rate bw : ℕ) (gain : ℚ) (ov uf : ℕ) :
    (encode_context_packet ts freq rate bw gain ov uf).length = 56 ∧
    sliceAt (encode_context_packet ts freq rate bw gain ov uf) 24 8 = toBytesBE 8 (fix64 bw) ∧
    sliceAt (encode_context_packet ts freq rate bw gain ov uf) 32 8 = toBytesBE 8 (fix64 freq) ∧
    sliceAt (encode_context_packet ts freq rate bw gain ov uf) 40 4 =
      toBytesBE 2 (gain_word gain) ++ toBytesBE 2 0 ∧
    sliceAt (encode_context_packet ts freq rate bw gain ov uf) 44 8 = toBytesBE 8 (fix64 rate) ∧
    sliceAt (encode_context_packet ts freq rate bw gain ov uf) 52 4 =
      toBytesBE 4 (state_event_word ov uf) := by
  obtain ⟨W, henc⟩ : ∃ w, encode_context_packet ts freq rate bw gain ov uf =
      ctx_prelude w ts ++ (toBytesBE 4 context_cif ++ ctx_payload freq rate bw gain ov uf) :=
    ⟨_, rfl⟩
  have hprelen : ∀ w, (ctx_prelude w ts).length = 20 := fun w => by
    simp [ctx_prelude, length_toBytesBE]
  refine ⟨?_, ?_, ?_, ?_, ?_, ?_⟩
  · rw [henc]
    simp [ctx_payload, List.length_append, hprelen, length_toBytesBE]
  · have e : encode_context_packet ts freq rate bw gain ov uf =
        (ctx_prelude W ts ++ toBytesBE 4 context_cif) ++
          (toBytesBE 8 (fix64 bw) ++
            (toBytesBE 8 (fix64 freq) ++
              (toBytesBE 2 (gain_word gain) ++ toBytesBE 2 0) ++ toBytesBE 8 (fix64 rate) ++
              toBytesBE 4 (state_event_word ov uf))) := by
      rw [henc]; simp [ctx_payload, List.append_assoc]
    rw [e, sliceAt_at _ _ _ 24 8 (by simp [List.length_append, hprelen, length_toBytesBE])
      (length_toBytesBE 8 _)]
  · have e : encode_context_packet ts freq rate bw gain ov uf =
        (ctx_prelude W ts ++ toBytesBE 4 context_cif ++ toBytesBE 8 (fix64 bw)) ++
          (toBytesBE 8 (fix64 freq) ++
            ((toBytesBE 2 (gain_word gain) ++ toBytesBE 2 0) ++ toBytesBE 8 (fix64 rate) ++
              toBytesBE 4 (state_event_word ov uf))) := by
      rw [henc]; simp [ctx_payload, List.append_assoc]
    rw [e, sliceAt_at _ _ _ 32 8 (by simp [List.length_append, hprelen, length_toBytesBE])
      (length_toBytesBE 8 _)]
  · have e : encode_context_packet ts freq rate bw gain ov uf =
        (ctx_prelude W ts ++ toBytesBE 4 context_cif ++ toBytesBE 8 (fix64 bw) ++
            toBytesBE 8 (fix64 freq)) ++
          ((toBytesBE 2 (gain_word gain) ++ toBytesBE 2 0) ++
            (toBytesBE 8 (fix64 rate) ++ toBytesBE 4 (state_event_word ov uf))) := by
      rw [henc]; simp [ctx_payload, List.append_assoc]
    rw [e, sliceAt_at _ _ _ 40 4 (by simp [List.length_append, hprelen, length_toBytesBE])
      (by simp [List.length_append, length_toBytesBE])]
  · have e : encode_context_packet ts freq rate bw gain ov uf =
        (ctx_prelude W ts ++ toBytesBE 4 context_cif ++ toBytesBE 8 (fix64 bw) ++
            toBytesBE 8 (fix64 freq) ++ toBytesBE 2 (gain_word gain) ++ toBytesBE 2 0) ++
          (toBytesBE 8 (fix64 rate) ++ toBytesBE 4 (state_event_word ov uf)) := by
      rw [henc]; simp [ctx_payload, List.append_assoc]
    rw [e, sliceAt_at _ _ _ 44 8 (by simp [List.length_append, hprelen, length_toBytesBE])
      (length_toBytesBE 8 _)]
  · have e : encode_context_packet ts freq rate bw gain ov uf =
        (ctx_prelude W ts ++ toBytesBE 4 context_cif ++ toBytesBE 8 (fix64 bw) ++
            toBytesBE 8 (fix64 freq) ++ toBytesBE 2 (gain_word gain) ++ toBytesBE 2 0 ++
            toBytesBE 8 (fix64 rate)) ++
          (toBytesBE 4 (state_event_word ov uf) ++ ([] : List ℕ)) := by
      rw [henc]; simp [ctx_payload, List.append_assoc]
    rw [e, sliceAt_at _ _ _ 52 4 (by simp [List.length_append, hprelen, length_toBytesBE])
      (length_toBytesBE 4 _)]

theorem readBE_head (k x : ℕ) (rest : List ℕ) :
    readBE (toBytesBE k x ++ rest) 0 k = x % 256 ^ k := by
  have h := readBE_at [] (toBytesBE k x) rest 0 k rfl (length_toBytesBE k x)
  simpa [from_toBytesBE] using h

/-- C2 counterexample: a 28-byte packet whose CIF has only the unsupported
bit 30 set is parsed successfully (the decoder ignores unknown CIF bits
instead of failing). -/
theorem ctx_parse_unknown_cif_accepted :
    parse_context_packet c2_packet 28 default_parsed = some default_parsed := by
  decide

/-- C2 amended: decode_context fails exactly when the length is below 28
bytes; the CIF contents, including unknown bits, never cause a parse
failure. -/
theorem ctx_parse_failure_iff (buf : List ℕ) (len : ℕ) (d : ParsedConfig) :
    parse_context_packet buf len d = none ↔ len < 28 := by
  unfold parse_context_packet
  split <;> simp_all

/-- C4: whenever the required size fits the packet buffer, a data packet
with an even number n >= 1 of samples occupies exactly 20 + 4n + 4 bytes
(no padding is inserted), and the total-words field stored in the low 16
bits of the emitted header word times 4 equals that emitted length. -/
theorem encode_data_length (ts : ℕ) (iq : List ℤ) (n c : ℕ) (h1 : 1 ≤ n) (h2 : n % 2 = 0)
    (h3 : 20 + n * 2 * 2 + 4 ≤ 16384) :
    ((encode_data_packet ts iq n c).1).length = 20 + 4 * n + 4 ∧
    readBE (encode_data_packet ts iq n c).1 0 4 % 2 ^ 16 * 4 = 20 + 4 * n + 4 := by
  unfold encode_data_packet
  rw [if_neg (by omega)]
  dsimp only
  constructor
  · simp only [List.length_append, length_toBytesBE, iq_payload_length, List.length_replicate]
    omega
  · rw [List.append_assoc, List.append_assoc, List.append_assoc, List.append_assoc, readBE_head]
    unfold data_header_word
    have h4 : (256 : ℕ) ^ 4 = 2 ^ 32 := by norm_num
    rw [h4]
    omega

/-- C4 witness at the MTU-1500 chunk size of 362 samples. -/
theorem encode_data_length_witness :
    ((encode_data_packet 0 [] 362 0).1).length = 20 + 4 * 362 + 4 ∧
    readBE (encode_data_packet 0 [] 362 0).1 0 4 % 2 ^ 16 * 4 = 20 + 4 * 362 + 4 :=
  encode_data_length 0 [] 362 0 (by norm_num) (by norm_num) (by norm_num)

/-- C6 counterexample: for the operator-supplied MTU 51 the size_t
subtraction in the code wraps around, so the computed value differs from
the spec formula floor((M - 28 - 24) / 4) rounded down to even. -/
theorem mtu_formula_cex :
    calculate_optimal_samples_per_packet 51 ≠ spec_samples_per_packet 51 := by
  decide

/-- C6 amended: for every MTU M with 52 <= M < 2^64 the computed
samples-per-packet equals floor((M - 28 - 24) / 4) rounded down to the
nearest even number. -/
theorem samples_per_packet_formula (mtu : ℕ) (h1 : 52 ≤ mtu) (h2 : mtu < 2 ^ 64) :
    calculate_optimal_samples_per_packet mtu = spec_samples_per_packet mtu := by
  unfold calculate_optimal_samples_per_packet spec_samples_per_packet
  have h : (mtu + 2 ^ 64 - 52) % 2 ^ 64 = mtu - 52 := by omega
  rw [h]

/-- C6 witness at the default MTU 1500. -/
theorem samples_per_packet_witness :
    calculate_optimal_samples_per_packet 1500 = spec_samples_per_packet 1500 :=
  samples_per_packet_formula 1500 (by norm_num) (by norm_num)

/-- C7 counterexample: updating the configuration with the sample rate 7
stores bandwidth 5, which is not equal to 0.8 * 7; the exact invariant
bandwidth = 0.8 * rate fails after an update whose rate is not divisible
by 5. -/
theorem bandwidth_exact_cex :
    (apply_config_update initial_config ⟨2400000000, 7, 20⟩).bandwidth_hz = 5 ∧
    ¬(((apply_config_update initial_config ⟨2400000000, 7, 20⟩).bandwidth_hz : ℚ) =
      (0.8 : ℚ) * ((apply_config_update initial_config ⟨2400000000, 7, 20⟩).sample_rate_hz : ℚ)) := by
  have h : apply_config_update initial_config ⟨2400000000, 7, 20⟩ =
      ⟨2400000000, 7, 5, 20, true⟩ := by decide
  rw [h]
  refine ⟨rfl, by norm_num⟩

/-- C7 amended: the invariant bandwidth = floor(0.8 * rate) holds for the
initial configuration and is preserved by every configuration update;
whenever the rate changes the bandwidth is recomputed from the new rate
and it is never set independently. -/
theorem bandwidth_invariant_preserved :
    bw_invariant initial_config ∧
    ∀ cfg r, bw_invariant cfg → bw_invariant (apply_config_update cfg r) := by
  constructor
  · unfold bw_invariant
    decide
  · intro cfg r h
    unfold apply_config_update
    dsimp only
    split_ifs <;> simp_all [bw_invariant]

/-- C7 witness: the invariant after a concrete update. -/
theorem bandwidth_invariant_witness :
    bw_invariant (apply_config_update initial_config ⟨100000000, 61440000, 40⟩) :=
  bandwidth_invariant_preserved.2 initial_config ⟨100000000, 61440000, 40⟩
    bandwidth_invariant_preserved.1

/-- C8: every received control datagram increments the reconfigurations
counter exactly once, whether or not the context packet parsed, and
enrols the source address with data port 4991 as a subscriber. -/
theorem control_step_effects (st : ControlState) (src : ℕ) (dgram : List ℕ) :
    (control_step st src dgram).reconfigs = st.reconfigs + 1 ∧
    (control_step st src dgram).subscribers = add_subscriber src 4991 st.subscribers := by
  unfold control_step
  dsimp only
  cases parse_context_packet dgram dgram.length
      ⟨st.config.center_freq_hz, st.config.sample_rate_hz, st.config.gain_db⟩ <;> simp

theorem counter_field_encode (ts : ℕ) (iq : List ℤ) (n c : ℕ)
    (h : 20 + n * 2 * 2 + 4 ≤ 16384) :
    counter_field (encode_data_packet ts iq n c).1 = c % 16 := by
  unfold counter_field encode_data_packet
  rw [if_neg (by omega)]
  dsimp only
  rw [List.append_assoc, List.append_assoc, List.append_assoc, List.append_assoc, readBE_head]
  unfold data_header_word
  have h4 : (256 : ℕ) ^ 4 = 2 ^ 32 := by norm_num
  rw [h4]
  omega

theorem encode_data_counter_step (ts : ℕ) (iq : List ℤ) (n c : ℕ)
    (h : 20 + n * 2 * 2 + 4 ≤ 16384) :
    (encode_data_packet ts iq n c).2 = (c + 1) % 16 := by
  unfold encode_data_packet
  rw [if_neg (by omega)]

/-- C5: across any sequence of streaming-thread emissions whose data
packets all fit the packet buffer, the counter fields written into
successive data packets are (c0 + 0) % 16, (c0 + 1) % 16, ... with no
skips (so from 0 they cycle 0,1,...,15,0,...), the final shared counter
equals c0 plus the number of data packets modulo 16, and interspersed
context emissions neither consume nor alter the counter. -/
theorem packet_counter_cycle (c0 : ℕ) (evs : List StreamEvent) (h0 : c0 < 16)
    (hok : evs.all ev_ok = true) :
    (stream_run c0 evs).2 = (List.range (count_data evs)).map (fun i => (c0 + i) % 16) ∧
    (stream_run c0 evs).1 = (c0 + count_data evs) % 16 := by
  induction evs generalizing c0 with
  | nil =>
    refine ⟨by simp [stream_run, count_data], ?_⟩
    simp only [stream_run, count_data]
    omega
  | cons e evs ih =>
    rw [List.all_cons, Bool.and_eq_true] at hok
    cases e with
    | ctx =>
      simpa only [stream_run, count_data] using ih c0 h0 hok.2
    | data n =>
      have hn : 20 + n * 2 * 2 + 4 ≤ 16384 := by
        have := hok.1
        simp [ev_ok] at this
        omega
      obtain ⟨ih1, ih2⟩ := ih ((c0 + 1) % 16) (Nat.mod_lt _ (by norm_num)) hok.2
      simp only [stream_run, count_data]
      rw [encode_data_counter_step _ _ _ _ hn, counter_field_encode _ _ _ _ hn, ih1, ih2]
      constructor
      · rw [List.range_succ_eq_map, List.map_cons, List.map_map]
        have hhead : (c0 + 0) % 16 = c0 % 16 := by omega
        have htail : List.map ((fun i => (c0 + i) % 16) ∘ Nat.succ) (List.range (count_data evs)) =
            List.map (fun i => ((c0 + 1) % 16 + i) % 16) (List.range (count_data evs)) := by
          refine List.map_congr_left ?_
          intro i _
          simp only [Function.comp_apply]
          omega
        rw [hhead, htail]
      · omega

/-- C5 witness on a concrete emission sequence with interspersed context
packets. -/
theorem packet_counter_cycle_witness :
    (stream_run 0 [.data 360, .ctx, .data 360, .data 360]).2 =
      (List.range (count_data [.data 360, .ctx, .data 360, .data 360])).map
        (fun i => (0 + i) % 16) ∧
    (stream_run 0 [.data 360, .ctx, .data 360, .data 360]).1 =
      (0 + count_data [.data 360, .ctx, .data 360, .data 360]) % 16 :=
  packet_counter_cycle 0 [.data 360, .ctx, .data 360, .data 360] (by norm_num) (by decide)

/-- C9: the subscriber registry invariant (at most 16 entries, unique
(address, port) keys, all active) is preserved by add_subscriber, adding
is idempotent, a duplicate enrolment leaves the registry unchanged, and
an enrolment into a full registry is silently dropped. -/
theorem add_subscriber_registry (l : List Subscriber) (a p : ℕ) (h : subscribers_inv l) :
    subscribers_inv (add_subscriber a p l) ∧
    add_subscriber a p (add_subscriber a p l) = add_subscriber a p l ∧
    ((∃ s ∈ l, s.addr = a ∧ s.port = p) → add_subscriber a p l = l) ∧
    (l.length = 16 → add_subscriber a p l = l) := by
  obtain ⟨hlen, hpw, hact⟩ := h
  by_cases hmem : (l.any fun s => s.active && (s.addr == a) && (s.port == p)) = true
  · have heq : add_subscriber a p l = l := by
      unfold add_subscriber
      rw [if_pos hmem]
    refine ⟨?_, ?_, fun _ => heq, fun _ => heq⟩
    · rw [heq]
      exact ⟨hlen, hpw, hact⟩
    · rw [heq]
      exact heq
  · have hkey : ∀ s ∈ l, s.addr ≠ a ∨ s.port ≠ p := by
      intro s hs
      by_contra hc
      push_neg at hc
      apply hmem
      refine List.any_eq_true.mpr ⟨s, hs, ?_⟩
      simp [hact s hs, hc.1, hc.2]
    by_cases hfull : l.length < 16
    · have heq : add_subscriber a p l = l ++ [⟨a, p, true⟩] := by
        unfold add_subscriber
        rw [if_neg hmem, if_pos hfull]
      refine ⟨?_, ?_, ?_, ?_⟩
      · rw [heq]
        refine ⟨by simp; omega, ?_, ?_⟩
        · rw [List.pairwise_append]
          refine ⟨hpw, List.pairwise_singleton _ _, ?_⟩
          intro s hs t ht
          simp only [List.mem_singleton] at ht
          subst ht
          exact hkey s hs
        · intro s hs
          rcases List.mem_append.mp hs with hsl | hse
          · exact hact s hsl
          · simp only [List.mem_singleton] at hse
            subst hse
            rfl
      · have hmem2 : ((l ++ [⟨a, p, true⟩] : List Subscriber).any
            fun s => s.active && (s.addr == a) && (s.port == p)) = true := by
          simp [List.any_append]
        rw [heq]
        unfold add_subscriber
        rw [if_pos hmem2]
      · rintro ⟨s, hs, ha, hp⟩
        rcases hkey s hs with hk | hk
        · exact absurd ha hk
        · exact absurd hp hk
      · intro h16
        exact absurd h16 (by omega)
    · have heq : add_subscriber a p l = l := by
        unfold add_subscriber
        rw [if_neg hmem, if_neg hfull]
      refine ⟨?_, ?_, fun _ => heq, fun _ => heq⟩
      · rw [heq]
        exact ⟨hlen, hpw, hact⟩
      · rw [heq]
        exact heq

/-- C9 witness on the empty registry. -/
theorem add_subscriber_registry_witness :
    subscribers_inv (add_subscriber 167772161 4991 []) ∧
    add_subscriber 167772161 4991 (add_subscriber 167772161 4991 []) =
      add_subscriber 167772161 4991 [] ∧
    ((∃ s ∈ ([] : List Subscriber), s.addr = 167772161 ∧ s.port = 4991) →
      add_subscriber 167772161 4991 [] = []) ∧
    (([] : List Subscriber).length = 16 → add_subscriber 167772161 4991 [] = []) :=
  add_subscriber_registry [] 167772161 4991 ⟨by simp, List.Pairwise.nil, by simp⟩

/-- C10: on a 28-byte datagram whose CIF has bit 27 set, the parser passes
its length check yet dereferences offsets 24..31, of which 28..31 lie
beyond the 28 provided bytes; the parse still reports success. -/
theorem parse_oob_read :
    (∃ off ∈ parse_field_reads (2 ^ 27), 28 ≤ off) ∧
    parse_context_packet c10_packet 28 default_parsed = some ⟨0, 30000000, 20⟩ := by
  constructor
  · exact ⟨28, by decide, by norm_num⟩
  · decide

end Vita49
